import Mathlib

/-!
# Verification of the file-context server's access guard and content cache

Shallow embedding of the two core components of the
`go-mcp-file-context-server` repository:

* the **access guard** (`validatePath`, `isBlockedPath`, `isSubPath` in
  `main.go`, newer revision): blocklist-first path validation with
  allowed-root containment;
* the **content cache** (`pkg/cache`): a bounded LRU cache with TTL
  checked lazily on access, built on `hashicorp/golang-lru/v2`.

Go strings are modelled as Lean `String` / `List Char` (the paths involved
are ASCII, where Go's byte-wise operations and Lean's char-wise operations
agree); `time.Time` and `time.Duration` are modelled as `Int` (nanoseconds);
the float64 `HitRate` statistic is modelled as a rational.  The code is
single-threaded per request in the stdio deployment, so cache operations
are sequential state transformers — with one place where the mutex is
semantically visible even on a single goroutine: `Cache.Get` holds
`c.mu.Lock()` for its whole body, and its TTL-expiry branch calls
`lru.Remove`, which synchronously fires the eviction callback installed by
`NewCache`; that callback calls `c.mu.Lock()` on the mutex `Get` already
holds.  Go mutexes are not reentrant, so the expired branch self-deadlocks
and never returns.  `cacheGet` therefore returns an `Option`: `none` is
that never-returning call (no counter is ever updated on it), `some`
a completing call.  Every other site that fires the eviction callback
(`Add` overflow in `Set`, explicit `Remove`, `Purge` in `Clear`,
`InvalidateStale`) runs while `c.mu` is not held, and completes.

Third-party dependencies are embedded from their documented contracts and
well-known implementations:

* `path/filepath` (Go standard library, Unix build): `Clean`, `Base`,
  `Abs` (with the working directory passed explicitly), `Separator = '/'`,
  `ToSlash = id`;
* `github.com/bmatcuk/doublestar/v4`: `Match(pattern, name)` returns
  `(false, ErrBadPattern)` on a malformed pattern and otherwise performs
  glob matching with `*` (any run of non-separator characters), `**`
  (any run of characters including separators), `?` (one non-separator
  character), `[...]` character classes and `\` escapes; brace alternation,
  which no pattern of this repository uses, is not modelled;
* `github.com/hashicorp/golang-lru/v2`: fixed-capacity LRU whose
  eviction callback fires on every removal of an entry — capacity
  eviction in `Add`, explicit `Remove`, and `Purge`.
-/

namespace FileContextServer

/-! ## Go `path/filepath` (Unix) -/

/-- Split a character list on `'/'`, like Go's `strings.Split(s, "/")`. -/
def splitSlash : List Char → List (List Char)
  | [] => [[]]
  | c :: rest =>
    let r := splitSlash rest
    if c = '/' then [] :: r
    else
      match r with
      | [] => [[c]]
      | g :: gs => (c :: g) :: gs

/-- Join components with `'/'`, like Go's `strings.Join(parts, "/")`. -/
def joinSlash : List (List Char) → List Char
  | [] => []
  | [g] => g
  | g :: gs => g ++ '/' :: joinSlash gs

/-- One step of Go `filepath.Clean`'s lexical `..` processing: the
accumulator is the stack of kept components, most recent first. -/
def cleanStep (rooted : Bool) (acc : List (List Char)) (c : List Char) :
    List (List Char) :=
  if c = ['.', '.'] then
    match acc with
    | [] => if rooted then [] else [c]
    | top :: rest => if top = ['.', '.'] then c :: acc else rest
  else c :: acc

/-- Go `filepath.Clean` on Unix: lexical path normalization (drop empty
and `.` components, resolve `..` against preceding components, keep
leading `..`s of relative paths, return `"."` for an empty result). -/
def cleanChars (cs : List Char) : List Char :=
  let rooted := cs.head? = some '/'
  let comps := (splitSlash cs).filter (fun c => ¬(c = [] ∨ c = ['.']))
  let out := (comps.foldl (cleanStep rooted) []).reverse
  if rooted then '/' :: joinSlash out
  else if out = [] then ['.'] else joinSlash out

/-- Go `filepath.Base` on Unix: `"."` for the empty path, otherwise strip
trailing separators and keep everything after the last separator, with
`"/"` when the path consists solely of separators. -/
def baseChars (cs : List Char) : List Char :=
  if cs = [] then ['.']
  else
    let stripped := (cs.reverse.dropWhile (· = '/')).reverse
    let name := (stripped.reverse.takeWhile (· ≠ '/')).reverse
    if name = [] then ['/'] else name

/-- Go `filepath.IsAbs` on Unix. -/
def goIsAbs (cs : List Char) : Bool := cs.head? = some '/'

/-- Go `filepath.Abs` with the process working directory passed
explicitly: `Clean(path)` when absolute, else `Join(cwd, path)`
(which is `Clean(cwd + "/" + path)`).  `os.Getwd` failure, the sole
error source, is not modelled. -/
def goAbs (cwd path : String) : String :=
  if goIsAbs path.data then ⟨cleanChars path.data⟩
  else ⟨cleanChars (cwd.data ++ '/' :: path.data)⟩

/-! ## `github.com/bmatcuk/doublestar/v4` glob matching

Modelled from the library's documented contract: a malformed pattern
(unterminated character class or trailing escape) yields
`(false, ErrBadPattern)` for every name; a well-formed pattern matches
with `*` / `**` / `?` / classes / escapes. -/

/-- Parse a character class after the opening `[`: optional negation
(`^` or `!`), then one or more members (a leading `]` is a literal
member; `\` escapes; `a-z` is a range), closed by `]`.  Returns
`(negated, members-as-ranges, rest-of-pattern)`; `none` when the class
is unterminated. -/
def parseClassAux : Nat → List Char → List (Char × Char) → Bool →
    Option (List (Char × Char) × List Char)
  | 0, _, _, _ => none
  | _ + 1, [], _, _ => none
  | fuel + 1, ']' :: rest, acc, first =>
    if first then parseClassAux fuel rest ((']', ']') :: acc) false
    else some (acc.reverse, rest)
  | fuel + 1, '\\' :: c :: rest, acc, _ =>
    parseClassAux fuel rest ((c, c) :: acc) false
  | _ + 1, ['\\'], _, _ => none
  | fuel + 1, c :: '-' :: d :: rest, acc, _ =>
    if d = ']' then parseClassAux fuel (']' :: rest) ((c, c) :: ('-', '-') :: acc) false
    else parseClassAux fuel rest ((c, d) :: acc) false
  | fuel + 1, c :: rest, acc, _ => parseClassAux fuel rest ((c, c) :: acc) false

/-- Parse a full character class body (after `[`), handling the optional
leading negation marker. -/
def parseClass (cs : List Char) : Option (Bool × List (Char × Char) × List Char) :=
  match cs with
  | '^' :: rest => (parseClassAux (rest.length + 1) rest [] true).map (⟨true, ·⟩)
  | '!' :: rest => (parseClassAux (rest.length + 1) rest [] true).map (⟨true, ·⟩)
  | rest => (parseClassAux (rest.length + 1) rest [] true).map (⟨false, ·⟩)

/-- Does a character fall in one of the class's ranges? -/
def classMatch (items : List (Char × Char)) (c : Char) : Bool :=
  items.any fun r => r.1 ≤ c ∧ c ≤ r.2

/-- Pattern well-formedness, as validated by `doublestar.Match`: every
escape has a following character and every character class is
terminated. -/
def validPat : Nat → List Char → Bool
  | 0, _ => false
  | _ + 1, [] => true
  | _ + 1, ['\\'] => false
  | fuel + 1, '\\' :: _ :: rest => validPat fuel rest
  | fuel + 1, '[' :: rest =>
    match parseClass rest with
    | some (_, _, r) => validPat fuel r
    | none => false
  | fuel + 1, _ :: rest => validPat fuel rest

/-- The glob matcher proper (fuel-indexed; `dsMatch` supplies enough fuel
for the longest possible derivation).  `*` matches any run of
non-separator characters, `**` any run of characters, `?` a single
non-separator character, a class one non-separator character in (or,
negated, not in) its ranges, `\c` and plain characters literally. -/
def gm : Nat → List Char → List Char → Bool
  | 0, _, _ => false
  | _ + 1, [], ns => ns.isEmpty
  | fuel + 1, '*' :: '*' :: ps, ns =>
    gm fuel ps ns ||
      match ns with
      | [] => false
      | _ :: ns' => gm fuel ('*' :: '*' :: ps) ns'
  | fuel + 1, '*' :: ps, ns =>
    gm fuel ps ns ||
      match ns with
      | [] => false
      | c :: ns' => c ≠ '/' && gm fuel ('*' :: ps) ns'
  | fuel + 1, '?' :: ps, ns =>
    match ns with
    | [] => false
    | c :: ns' => c ≠ '/' && gm fuel ps ns'
  | fuel + 1, '\\' :: pc :: ps, ns =>
    match ns with
    | [] => false
    | c :: ns' => c = pc && gm fuel ps ns'
  | _ + 1, ['\\'], _ => false
  | fuel + 1, '[' :: ps, ns =>
    match parseClass ps with
    | some (neg, items, rest) =>
      match ns with
      | [] => false
      | c :: ns' => c ≠ '/' && (classMatch items c != neg) && gm fuel rest ns'
    | none => false
  | fuel + 1, pc :: ps, ns =>
    match ns with
    | [] => false
    | c :: ns' => c = pc && gm fuel ps ns'

/-- `doublestar.Match(pattern, name)`: `ErrBadPattern` (modelled as
`Except.error ()`) on a malformed pattern, otherwise the match result. -/
def dsMatch (pat name : List Char) : Except Unit Bool :=
  if validPat (pat.length + 1) pat then
    .ok (gm (2 * pat.length + name.length + 1) pat name)
  else .error ()

/-- The way every call site uses the matcher: `matched, _ :=
doublestar.Match(...)` discards the error, so a malformed pattern
matches nothing. -/
def dsMatchBool (pat name : List Char) : Bool :=
  match dsMatch pat name with
  | .ok b => b
  | .error _ => false

/-- Pattern well-formedness at the `String` level. -/
def validPattern (p : String) : Bool := validPat (p.data.length + 1) p.data

/-! ## Access guard (`main.go`, newer revision) -/

/-- `isBlockedPath`: does the absolute path match any blocked pattern,
either against its base name or against any suffix of its `/`-separated
segment chain?  (`filepath.ToSlash` is the identity on Unix.) -/
def isBlockedPath (blockedPatterns : List String) (absPath : String) : Bool :=
  if blockedPatterns.isEmpty then false
  else
    let normalizedPath := absPath.data
    let baseName := baseChars absPath.data
    blockedPatterns.any fun pattern =>
      let pat := pattern.data
      dsMatchBool pat baseName ||
        let parts := splitSlash normalizedPath
        (List.range parts.length).any fun i =>
          dsMatchBool pat (joinSlash (parts.drop i))

/-- `isSubPath parent child`: clean both, force a trailing separator on
the parent, and accept when the child equals the parent (cleaned again
without the separator) or has the separator-terminated parent as a
prefix. -/
def isSubPath (parent child : String) : Bool :=
  let p := cleanChars parent.data
  let c := cleanChars child.data
  let p2 := if p.getLast? = some '/' then p else p ++ ['/']
  c = cleanChars p2.dropLast || p2.isPrefixOf c

/-- Structured error distinguishing resolution failure from denial. -/
inductive PathError where
  | invalidPath
  | accessDenied
deriving Repr, DecidableEq

/-- `validatePath`: resolve to an absolute path, reject on a blocked
pattern (deny takes precedence), allow everything when no roots are
configured, otherwise require containment in some allowed root.  The
package-level `allowedRootDirs` / `blockedPatterns` configuration and
the working directory are passed explicitly. -/
def validatePath (allowedRootDirs blockedPatterns : List String)
    (cwd path : String) : Except PathError String :=
  let absPath := goAbs cwd path
  if isBlockedPath blockedPatterns absPath then .error .accessDenied
  else if allowedRootDirs.isEmpty then .ok absPath
  else if allowedRootDirs.any fun rootDir => isSubPath rootDir absPath then
    .ok absPath
  else .error .accessDenied

/-! ## Content cache (`pkg/cache`, on `hashicorp/golang-lru/v2`)

The LRU is modelled as an association list in recency order, most
recently used first, with unique keys.  The library's eviction callback —
which `NewCache` installs to increment the `evictions` counter — fires on
every removal of a present entry: capacity eviction in `Add`, explicit
`Remove`, and each entry dropped by `Purge`.  Times and durations are
`Int` nanoseconds; `time.Since(t)` at the explicit current time `now`
is `now - t`. -/

/-- A cached file entry (`cache.Entry`). -/
structure Entry where
  content : String
  size : Int
  modifiedTime : Int
  cachedAt : Int
  hits : Int
deriving Repr, DecidableEq

/-- The cache (`cache.Cache`): LRU entries (most recently used first),
capacity, TTL and the three counters.  The mutex is not modelled
(sequential semantics). -/
structure Cache where
  entries : List (String × Entry)
  maxSize : Nat
  ttl : Int
  hits : Int
  misses : Int
  evictions : Int
deriving Repr, DecidableEq

/-- `NewCache(maxSize, ttl)`: the underlying `simplelru.NewLRU` rejects a
non-positive size. -/
def newCache (maxSize : Int) (ttl : Int) : Option Cache :=
  if maxSize ≤ 0 then none
  else some ⟨[], maxSize.toNat, ttl, 0, 0, 0⟩

/-- A fresh cache with positive capacity, for direct construction. -/
def freshCache (maxSize : Nat) (ttl : Int) : Cache := ⟨[], maxSize, ttl, 0, 0, 0⟩

/-- Map lookup by key. -/
def lookupEntry (es : List (String × Entry)) (key : String) : Option Entry :=
  (es.find? fun kv => kv.1 = key).map fun kv => kv.2

/-- Delete a key from the association list. -/
def eraseKey (es : List (String × Entry)) (key : String) : List (String × Entry) :=
  es.filter fun kv => kv.1 ≠ key

/-- `Cache.Get(key)` at explicit current time `now`.  `Get` takes
`c.mu.Lock()` with a deferred unlock for the whole call.  A missing key
records a miss; a present, live entry is promoted by the inner
`lru.Get`, gets its per-entry and global hit counters bumped, and is
returned.  When the TTL guard `time.Since(entry.CachedAt) > c.ttl`
fires, `Get` calls `c.lru.Remove(key)`, which synchronously invokes the
eviction callback installed by `NewCache` — and that callback calls
`c.mu.Lock()` on the mutex this `Get` already holds.  Go mutexes are not
reentrant, so the expired branch self-deadlocks on the same goroutine:
the call never returns and updates no counter.  The result is therefore
an `Option`: `none` models that never-returning call, `some (result,
state)` a completing one. -/
def cacheGet (c : Cache) (key : String) (now : Int) :
    Option (Option Entry × Cache) :=
  match lookupEntry c.entries key with
  | none => some (none, { c with misses := c.misses + 1 })
  | some e =>
    if now - e.cachedAt > c.ttl then
      none
    else
      let e' := { e with hits := e.hits + 1 }
      some (some e', { c with entries := (key, e') :: eraseKey c.entries key,
                              hits := c.hits + 1 })

/-- `Cache.Set(key, entry)` at explicit current time `now`: stamp
`CachedAt`, then `lru.Add` — an existing key is updated and promoted
with no eviction; a new key is inserted at the front and, when the
cache exceeds capacity, the least recently used entry (the back of the
list) is evicted, firing the eviction callback. -/
def cacheSet (c : Cache) (key : String) (e : Entry) (now : Int) : Cache :=
  let e' := { e with cachedAt := now }
  match lookupEntry c.entries key with
  | some _ => { c with entries := (key, e') :: eraseKey c.entries key }
  | none =>
    let es := (key, e') :: c.entries
    if es.length > c.maxSize then
      { c with entries := es.dropLast, evictions := c.evictions + 1 }
    else { c with entries := es }

/-- `Cache.Remove(key)`: `lru.Remove`, whose eviction callback fires
exactly when the key was present. -/
def cacheRemove (c : Cache) (key : String) : Cache :=
  match lookupEntry c.entries key with
  | some _ => { c with entries := eraseKey c.entries key,
                       evictions := c.evictions + 1 }
  | none => c

/-- `Cache.Clear()`: `lru.Purge` (each dropped entry fires the eviction
callback) followed by resetting all three counters to zero — the purge's
own eviction increments are therefore erased. -/
def cacheClear (_c : Cache) : Cache :=
  { entries := [], maxSize := _c.maxSize, ttl := _c.ttl,
    hits := 0, misses := 0, evictions := 0 }

/-- `Cache.InvalidateStale(path, modTime)`: `lru.Peek` (no promotion, no
counters); when the stored modification time is strictly older, remove
the entry (firing the eviction callback) and return true. -/
def invalidateStale (c : Cache) (path : String) (modTime : Int) : Bool × Cache :=
  match lookupEntry c.entries path with
  | some e =>
    if e.modifiedTime < modTime then
      (true, { c with entries := eraseKey c.entries path,
                      evictions := c.evictions + 1 })
    else (false, c)
  | none => (false, c)

/-- Per-entry statistics snapshot (`cache.EntryStats`). -/
structure EntryStats where
  path : String
  size : Int
  modifiedTime : Int
  cachedAt : Int
  hits : Int
deriving Repr, DecidableEq

/-- Cache statistics (`cache.Stats`); the float64 hit rate is modelled
as a rational, the `TTL` string field as the raw duration. -/
structure Stats where
  size : Nat
  maxSize : Nat
  hits : Int
  misses : Int
  hitRate : ℚ
  evictions : Int
  ttl : Int
  entries : List EntryStats
deriving Repr, DecidableEq

/-- `Cache.Stats(detailed)`: the hit rate is `hits / (hits + misses)`
when any `Get` has happened and `0` otherwise; `MaxSize` is populated
from `c.lru.Len()` — the code notes the LRU wrapper does not expose its
capacity — so it reports the current entry count, not the configured
capacity.  `Keys` enumerates oldest first. -/
def cacheStats (c : Cache) (detailed : Bool) : Stats :=
  let total := c.hits + c.misses
  let hitRate : ℚ := if total > 0 then (c.hits : ℚ) / (total : ℚ) else 0
  { size := c.entries.length
    maxSize := c.entries.length
    hits := c.hits
    misses := c.misses
    hitRate := hitRate
    evictions := c.evictions
    ttl := c.ttl
    entries :=
      if detailed then
        c.entries.reverse.map fun kv =>
          ⟨kv.1, kv.2.size, kv.2.modifiedTime, kv.2.cachedAt, kv.2.hits⟩
      else [] }

/-! ## The read path's cache gate (`handleReadContext`)

After `validatePath` and `os.Stat`, the handler serves cached content
only when `fileCache.Get` succeeds (so the entry is within TTL) and
`entry.ModifiedTime.Equal(info.ModTime()) ||
entry.ModifiedTime.After(info.ModTime())` — the observed on-disk
modification time is not strictly newer than the stored one.  A
stale-mtime entry falls through to a fresh read; a TTL-expired entry
makes `fileCache.Get` self-deadlock, so the handler never returns. -/

/-- The cache-consultation step of `handleReadContext`:
`some (some entry, c')` means the cached content is served,
`some (none, c')` means the handler falls through to a fresh file read,
and `none` means the handler never returns because `fileCache.Get`
self-deadlocked on a TTL-expired entry. -/
def readFromCache (c : Cache) (key : String) (now diskModTime : Int) :
    Option (Option Entry × Cache) :=
  match cacheGet c key now with
  | some (some entry, c') =>
    if entry.modifiedTime = diskModTime ∨ diskModTime < entry.modifiedTime then
      some (some entry, c')
    else some (none, c')
  | some (none, c') => some (none, c')
  | none => none

/-! ## Operation sequences over the cache -/

/-- One cache operation, with explicit times where the code reads the
clock. -/
inductive Op where
  | get (key : String) (now : Int)
  | set (key : String) (e : Entry) (now : Int)
  | remove (key : String)
  | clear
  | invalidate (key : String) (modTime : Int)
deriving Repr, DecidableEq

/-- Apply one operation to the cache state; `none` when the operation
never returns (a `Get` hitting the TTL-expiry self-deadlock). -/
def step (c : Cache) : Op → Option Cache
  | .get key now => (cacheGet c key now).map fun r => r.2
  | .set key e now => some (cacheSet c key e now)
  | .remove key => some (cacheRemove c key)
  | .clear => some (cacheClear c)
  | .invalidate key t => some (invalidateStale c key t).2

/-- Run a sequence of operations; `none` when some operation deadlocks —
the rest of the sequence is then never reached. -/
def run (c : Cache) : List Op → Option Cache
  | [] => some c
  | op :: ops =>
    match step c op with
    | some c' => run c' ops
    | none => none

/-- Is an operation a `Get`? -/
def Op.isGet : Op → Bool
  | .get _ _ => true
  | _ => false

/-- Is an operation a `Clear`? -/
def Op.isClear : Op → Bool
  | .clear => true
  | _ => false

/-! ## Helper lemmas -/

/-- A pattern that fails validation matches nothing at every call site,
because the call sites discard the `ErrBadPattern` error. -/
lemma dsMatchBool_of_invalid (p : String) (h : validPattern p = false)
    (name : List Char) : dsMatchBool p.data name = false := by
  unfold dsMatchBool dsMatch
  unfold validPattern at h
  simp only [h, Bool.false_eq_true, if_false]

/-- Looking up a key just erased yields nothing. -/
lemma lookupEntry_eraseKey (es : List (String × Entry)) (key : String) :
    lookupEntry (eraseKey es key) key = none := by
  induction es with
  | nil => rfl
  | cons kv rest ih =>
    unfold eraseKey at ih ⊢
    unfold lookupEntry at ih ⊢
    by_cases hk : kv.1 = key
    · simpa [hk] using ih
    · simpa [hk, List.find?] using ih

/-- Erasing never lengthens the list. -/
lemma eraseKey_length_le (es : List (String × Entry)) (key : String) :
    (eraseKey es key).length ≤ es.length :=
  List.length_filter_le _ _

/-- Erasing a present key strictly shortens the list. -/
lemma eraseKey_length_lt (es : List (String × Entry)) (key : String)
    (h : (lookupEntry es key).isSome) :
    (eraseKey es key).length < es.length := by
  induction es with
  | nil => simp [lookupEntry] at h
  | cons kv rest ih =>
    by_cases hk : kv.1 = key
    · have hle : (eraseKey (kv :: rest) key).length ≤ rest.length := by
        simpa [eraseKey, List.filter_cons, hk] using List.length_filter_le _ rest
      simpa using Nat.lt_succ_of_le hle
    · have hh : (lookupEntry rest key).isSome := by
        simpa [lookupEntry, List.find?, hk] using h
      simpa [eraseKey, List.filter_cons, hk] using Nat.succ_lt_succ (ih hh)

/-! ## Claims about the access guard -/

/-- C1: for every path whose resolved absolute form matches a configured
blocked pattern (against its base name or any suffix of its path-segment
chain), `validatePath` returns `AccessDenied`, whatever the allowed-roots
configuration — in particular even when the path lies under an allowed
root: the blocked-pattern check runs before the allowed-roots check and a
match always wins. -/
theorem C1_blocked_pattern_always_denies
    (allowedRootDirs blockedPatterns : List String) (cwd path : String)
    (h : isBlockedPath blockedPatterns (goAbs cwd path) = true) :
    validatePath allowedRootDirs blockedPatterns cwd path =
      .error .accessDenied := by
  unfold validatePath
  simp [h]

/-- Witness for C1: `/tmp/.env` lies under the allowed root `/tmp` yet is
denied because it matches the blocked pattern `.env`. -/
theorem C1_blocked_pattern_always_denies_witness :
    isSubPath "/tmp" (goAbs "/" "/tmp/.env") = true ∧
    validatePath ["/tmp"] [".env"] "/" "/tmp/.env" = .error .accessDenied :=
  ⟨by decide,
   C1_blocked_pattern_always_denies ["/tmp"] [".env"] "/" "/tmp/.env" (by decide)⟩

/-- C2: with a non-empty allowed-roots list (and no blocklist match),
`validatePath` accepts exactly the paths contained in some root in the
sense of `isSubPath`; concretely, with `allowedRoots = ["/home/alice"]`,
`/home/alice/project/x.txt` and `/home/alice` itself are accepted while
the sibling `/home/alice-other/x.txt`, which shares the root as a string
prefix, is denied. -/
theorem C2_allowed_roots_containment
    (allowedRootDirs blockedPatterns : List String) (cwd path : String)
    (hne : allowedRootDirs ≠ [])
    (hnb : isBlockedPath blockedPatterns (goAbs cwd path) = false) :
    (validatePath allowedRootDirs blockedPatterns cwd path =
        .ok (goAbs cwd path) ↔
      ∃ rootDir ∈ allowedRootDirs, isSubPath rootDir (goAbs cwd path) = true) ∧
    validatePath ["/home/alice"] [] "/" "/home/alice/project/x.txt" =
      .ok "/home/alice/project/x.txt" ∧
    validatePath ["/home/alice"] [] "/" "/home/alice" = .ok "/home/alice" ∧
    validatePath ["/home/alice"] [] "/" "/home/alice-other/x.txt" =
      .error .accessDenied := by
  refine ⟨?_, rfl, rfl, rfl⟩
  unfold validatePath
  simp only [hnb, Bool.false_eq_true, if_false, List.isEmpty_iff, hne]
  by_cases hany :
      (allowedRootDirs.any fun rootDir => isSubPath rootDir (goAbs cwd path)) = true
  · simp only [hany, if_true, true_iff]
    exact List.any_eq_true.mp hany
  · simp only [hany, Bool.false_eq_true, if_false]
    simp only [List.any_eq_true] at hany
    constructor
    · intro hcon
      exact absurd hcon (by simp)
    · intro hex
      exact absurd hex hany

/-- Witness for C2 at the spec's own example configuration. -/
theorem C2_allowed_roots_containment_witness :
    (validatePath ["/home/alice"] [] "/" "/home/alice/project/x.txt" =
        .ok (goAbs "/" "/home/alice/project/x.txt") ↔
      ∃ rootDir ∈ ["/home/alice"],
        isSubPath rootDir (goAbs "/" "/home/alice/project/x.txt") = true) ∧
    validatePath ["/home/alice"] [] "/" "/home/alice/project/x.txt" =
      .ok "/home/alice/project/x.txt" ∧
    validatePath ["/home/alice"] [] "/" "/home/alice" = .ok "/home/alice" ∧
    validatePath ["/home/alice"] [] "/" "/home/alice-other/x.txt" =
      .error .accessDenied :=
  C2_allowed_roots_containment ["/home/alice"] [] "/" "/home/alice/project/x.txt"
    (by decide) (by decide)

/-- C10: a malformed glob among the blocked patterns matches nothing —
the call sites discard the pattern-match error — so it contributes no
block: `isBlockedPath` behaves as if the pattern were absent, and with
only the malformed pattern configured the guard fails open instead of
rejecting the configuration or failing closed. -/
theorem C10_malformed_pattern_fails_open (p : String) (ps : List String)
    (absPath : String) (roots : List String) (cwd q : String)
    (h : validPattern p = false) :
    isBlockedPath (p :: ps) absPath = isBlockedPath ps absPath ∧
    validatePath roots [p] cwd q = validatePath roots [] cwd q := by
  have hm := dsMatchBool_of_invalid p h
  constructor
  · by_cases hps : ps = []
    · subst hps
      simp [isBlockedPath, hm]
    · simp [isBlockedPath, hm, hps]
  · have hb : ∀ a, isBlockedPath [p] a = false := by
      intro a
      simp [isBlockedPath, hm]
    have hb0 : ∀ a, isBlockedPath [] a = false := by
      intro a
      simp [isBlockedPath]
    simp [validatePath, hb, hb0]

/-- Witness for C10: the unterminated class `[` is malformed, blocks
nothing next to `.env`, and alone leaves validation unrestricted. -/
theorem C10_malformed_pattern_fails_open_witness :
    validPattern "[" = false ∧
    isBlockedPath ["[", ".env"] "/tmp/secret" =
      isBlockedPath [".env"] "/tmp/secret" ∧
    validatePath ["/tmp"] ["["] "/" "/tmp/secret" =
      validatePath ["/tmp"] [] "/" "/tmp/secret" :=
  ⟨by decide,
   (C10_malformed_pattern_fails_open "[" [".env"] "/tmp/secret" ["/tmp"] "/"
      "/tmp/secret" (by decide)).1,
   (C10_malformed_pattern_fails_open "[" [".env"] "/tmp/secret" ["/tmp"] "/"
      "/tmp/secret" (by decide)).2⟩

/-- Looking up the key of the head pair succeeds immediately. -/
lemma lookupEntry_cons_self (key : String) (x : Entry)
    (tail : List (String × Entry)) :
    lookupEntry ((key, x) :: tail) key = some x := by
  simp [lookupEntry, List.find?]

/-- After `Set`, the key sits at the front of the recency list with
`cachedAt` stamped, and every field other than `entries` and
`evictions` is unchanged (given the positive capacity `NewCache`
guarantees). -/
lemma cacheSet_fields (c : Cache) (key : String) (e : Entry) (now : Int)
    (hcap : 0 < c.maxSize) :
    (∃ tail, (cacheSet c key e now).entries =
      (key, { e with cachedAt := now }) :: tail) ∧
    (cacheSet c key e now).maxSize = c.maxSize ∧
    (cacheSet c key e now).ttl = c.ttl ∧
    (cacheSet c key e now).hits = c.hits ∧
    (cacheSet c key e now).misses = c.misses := by
  unfold cacheSet
  cases hl : lookupEntry c.entries key with
  | some _ => exact ⟨⟨eraseKey c.entries key, rfl⟩, rfl, rfl, rfl, rfl⟩
  | none =>
    by_cases hov :
        ((key, { e with cachedAt := now }) :: c.entries).length > c.maxSize
    · cases hent : c.entries with
      | nil =>
        rw [hent] at hov
        simp only [List.length_cons, List.length_nil] at hov
        omega
      | cons a rest =>
        rw [hent] at hov
        have hov' : c.maxSize < rest.length + 1 + 1 := by simpa using hov
        exact ⟨⟨(a :: rest).dropLast, by simp [hov']⟩, by simp [hov'],
          by simp [hov'], by simp [hov'], by simp [hov']⟩
    · have hov' : ¬c.maxSize < c.entries.length + 1 := by simpa using hov
      exact ⟨⟨c.entries, by simp [hov']⟩, by simp [hov'], by simp [hov'],
        by simp [hov'], by simp [hov']⟩

/-- Branch equation: `Get` on an absent key completes with a miss. -/
lemma cacheGet_eq_none (c : Cache) (key : String) (now : Int)
    (h : lookupEntry c.entries key = none) :
    cacheGet c key now = some (none, { c with misses := c.misses + 1 }) := by
  unfold cacheGet
  rw [h]

/-- Branch equation: `Get` on a TTL-expired entry never returns (the
eviction callback re-locks the mutex `Get` holds). -/
lemma cacheGet_eq_expired (c : Cache) (key : String) (now : Int) (e₀ : Entry)
    (h : lookupEntry c.entries key = some e₀) (ht : now - e₀.cachedAt > c.ttl) :
    cacheGet c key now = none := by
  unfold cacheGet
  simp only [h]
  rw [if_pos ht]

/-- Branch equation: `Get` on a live entry completes with a hit. -/
lemma cacheGet_eq_hit (c : Cache) (key : String) (now : Int) (e₀ : Entry)
    (h : lookupEntry c.entries key = some e₀) (ht : ¬now - e₀.cachedAt > c.ttl) :
    cacheGet c key now =
      some (some { e₀ with hits := e₀.hits + 1 },
        { c with entries := (key, { e₀ with hits := e₀.hits + 1 }) ::
                   eraseKey c.entries key,
                 hits := c.hits + 1 }) := by
  unfold cacheGet
  simp only [h]
  rw [if_neg ht]

/-- Branch equation: `Set` on a present key (update and promote). -/
lemma cacheSet_eq_update (c : Cache) (key : String) (e e₁ : Entry) (now : Int)
    (h : lookupEntry c.entries key = some e₁) :
    cacheSet c key e now =
      { c with entries := (key, { e with cachedAt := now }) ::
          eraseKey c.entries key } := by
  unfold cacheSet
  simp only [h]

/-- Branch equation: `Set` of a new key into a full cache (capacity
eviction of the list's last, least-recently-used, entry). -/
lemma cacheSet_eq_evict (c : Cache) (key : String) (e : Entry) (now : Int)
    (h : lookupEntry c.entries key = none)
    (hov : ((key, { e with cachedAt := now }) :: c.entries).length > c.maxSize) :
    cacheSet c key e now =
      { c with entries := ((key, { e with cachedAt := now }) :: c.entries).dropLast,
               evictions := c.evictions + 1 } := by
  unfold cacheSet
  simp only [h]
  rw [if_pos hov]

/-- Branch equation: `Set` of a new key with room to spare. -/
lemma cacheSet_eq_add (c : Cache) (key : String) (e : Entry) (now : Int)
    (h : lookupEntry c.entries key = none)
    (hov : ¬((key, { e with cachedAt := now }) :: c.entries).length > c.maxSize) :
    cacheSet c key e now =
      { c with entries := (key, { e with cachedAt := now }) :: c.entries } := by
  unfold cacheSet
  simp only [h]
  rw [if_neg hov]

/-- Branch equation: `Remove` of a present key (fires the eviction
callback). -/
lemma cacheRemove_eq_present (c : Cache) (key : String) (e₁ : Entry)
    (h : lookupEntry c.entries key = some e₁) :
    cacheRemove c key =
      { c with entries := eraseKey c.entries key,
               evictions := c.evictions + 1 } := by
  unfold cacheRemove
  simp only [h]

/-- Branch equation: `Remove` of an absent key is a no-op. -/
lemma cacheRemove_eq_absent (c : Cache) (key : String)
    (h : lookupEntry c.entries key = none) :
    cacheRemove c key = c := by
  unfold cacheRemove
  simp only [h]

/-- Branch equation: `InvalidateStale` removing a stale entry (fires the
eviction callback). -/
lemma invalidateStale_eq_stale (c : Cache) (key : String) (t : Int) (e₁ : Entry)
    (h : lookupEntry c.entries key = some e₁) (hm : e₁.modifiedTime < t) :
    invalidateStale c key t =
      (true, { c with entries := eraseKey c.entries key,
                      evictions := c.evictions + 1 }) := by
  unfold invalidateStale
  simp only [h]
  rw [if_pos hm]

/-- Branch equation: `InvalidateStale` leaving a non-stale entry. -/
lemma invalidateStale_eq_fresh (c : Cache) (key : String) (t : Int) (e₁ : Entry)
    (h : lookupEntry c.entries key = some e₁) (hm : ¬e₁.modifiedTime < t) :
    invalidateStale c key t = (false, c) := by
  unfold invalidateStale
  simp only [h]
  rw [if_neg hm]

/-- Branch equation: `InvalidateStale` on an absent key. -/
lemma invalidateStale_eq_absent (c : Cache) (key : String) (t : Int)
    (h : lookupEntry c.entries key = none) :
    invalidateStale c key t = (false, c) := by
  unfold invalidateStale
  simp only [h]

/-! ## Claims about the content cache -/

/-- Witness cache for the concrete read-path checks: one entry for `/f`
with source modification time 5, cached at time 0, TTL 100. -/
def entryFx : Entry := ⟨"cached", 6, 5, 0, 0⟩

/-- Witness cache holding `entryFx` under `/f`. -/
def cacheFx : Cache := cacheSet (freshCache 4 100) "/f" entryFx 0

/-- Counterexample to C3 as stated: at time 101 the entry for `/f`
(cached at time 0, TTL 100) is present and TTL-expired, yet the read
does not fall through to a fresh file read — `fileCache.Get`
self-deadlocks inside the handler (the eviction callback re-locks the
mutex `Get` already holds), so the read never completes: the result is
the never-returns marker, not a fall-through. -/
theorem C3_counterexample :
    lookupEntry cacheFx.entries "/f" = some entryFx ∧
    (101 : Int) - entryFx.cachedAt > cacheFx.ttl ∧
    readFromCache cacheFx "/f" 101 5 = none :=
  ⟨rfl, by decide, rfl⟩

/-- C3 amended: whenever the read's `fileCache.Get` completes, cached
content is served only if the entry is within its TTL and the freshly
observed on-disk modification time is not strictly newer than the
entry's stored one; an externally-edited (stale-mtime) entry falls
through to a fresh file read, while a TTL-expired entry makes the `Get`
call self-deadlock, so the read never completes on it — and in
particular never serves it. -/
theorem C3_cache_gate_amended (c : Cache) (key : String) (now disk : Int) :
    (∀ e c', readFromCache c key now disk = some (some e, c') →
      (∃ e₀, lookupEntry c.entries key = some e₀ ∧
        now - e₀.cachedAt ≤ c.ttl ∧ e = { e₀ with hits := e₀.hits + 1 }) ∧
      disk ≤ e.modifiedTime) ∧
    (∀ e₀, lookupEntry c.entries key = some e₀ → ¬now - e₀.cachedAt > c.ttl →
      disk > e₀.modifiedTime →
      readFromCache c key now disk =
        some (none,
          { c with
              entries := (key, { e₀ with hits := e₀.hits + 1 }) ::
                eraseKey c.entries key,
              hits := c.hits + 1 })) ∧
    (∀ e₀, lookupEntry c.entries key = some e₀ → now - e₀.cachedAt > c.ttl →
      readFromCache c key now disk = none) := by
  refine ⟨?_, ?_, ?_⟩
  · intro e c' he
    cases h0 : lookupEntry c.entries key with
    | none =>
      simp only [readFromCache, cacheGet_eq_none c key now h0] at he
      exact absurd he (by simp)
    | some e₀ =>
      by_cases httl : now - e₀.cachedAt > c.ttl
      · simp only [readFromCache, cacheGet_eq_expired c key now e₀ h0 httl] at he
        exact absurd he (by simp)
      · simp only [readFromCache, cacheGet_eq_hit c key now e₀ h0 httl] at he
        by_cases hmod : e₀.modifiedTime = disk ∨ disk < e₀.modifiedTime
        · rw [if_pos (by simpa using hmod)] at he
          simp only [Option.some.injEq, Prod.mk.injEq] at he
          obtain ⟨he1, -⟩ := he
          subst he1
          refine ⟨⟨e₀, rfl, by omega, rfl⟩, ?_⟩
          show disk ≤ e₀.modifiedTime
          rcases hmod with hmod | hmod <;> omega
        · rw [if_neg (by simpa using hmod)] at he
          exact absurd he (by simp)
  · intro e₀ h0 httl hstale
    have hmod : ¬(e₀.modifiedTime = disk ∨ disk < e₀.modifiedTime) := by omega
    simp only [readFromCache, cacheGet_eq_hit c key now e₀ h0 httl]
    rw [if_neg (by simpa using hmod)]
  · intro e₀ h0 httl
    simp only [readFromCache, cacheGet_eq_expired c key now e₀ h0 httl]

/-- Witness for the amended C3: at time 50 with on-disk modification
time 6 (newer than the stored 5) the read falls through to a fresh
read, and at time 101 the TTL-expired entry makes the read deadlock
instead of completing. -/
theorem C3_cache_gate_amended_witness :
    readFromCache cacheFx "/f" 50 6 =
      some (none,
        { cacheFx with
            entries := ("/f", { entryFx with hits := entryFx.hits + 1 }) ::
              eraseKey cacheFx.entries "/f",
            hits := cacheFx.hits + 1 }) ∧
    readFromCache cacheFx "/f" 101 5 = none :=
  ⟨(C3_cache_gate_amended cacheFx "/f" 50 6).2.1 entryFx rfl (by decide)
      (by decide),
   (C3_cache_gate_amended cacheFx "/f" 101 5).2.2 entryFx rfl (by decide)⟩

/-- C9: `InvalidateStale(path, observedModTime)` returns true and removes
the entry exactly when an entry exists whose stored modification time is
strictly older than the observed one; in every other case — absent entry,
or stored time equal to or newer than the observed one — it returns false
and leaves the cache untouched. -/
theorem C9_invalidate_stale (c : Cache) (path : String) (t : Int) :
    ((invalidateStale c path t).1 = true ↔
      ∃ e, lookupEntry c.entries path = some e ∧ e.modifiedTime < t) ∧
    ((invalidateStale c path t).1 = true →
      lookupEntry (invalidateStale c path t).2.entries path = none) ∧
    ((invalidateStale c path t).1 = false → (invalidateStale c path t).2 = c) := by
  unfold invalidateStale
  cases h0 : lookupEntry c.entries path with
  | none => simp [h0]
  | some e =>
    by_cases hm : e.modifiedTime < t
    · simp [h0, hm, lookupEntry_eraseKey]
    · simp [h0, hm]

/-- Witness for C9: with stored modification time 5, observing time 6
invalidates (and a following lookup misses) while observing time 5 does
not and leaves the state unchanged. -/
theorem C9_invalidate_stale_witness :
    ((invalidateStale cacheFx "/f" 6).1 = true ↔
      ∃ e, lookupEntry cacheFx.entries "/f" = some e ∧ e.modifiedTime < 6) ∧
    ((invalidateStale cacheFx "/f" 6).1 = true →
      lookupEntry (invalidateStale cacheFx "/f" 6).2.entries "/f" = none) ∧
    ((invalidateStale cacheFx "/f" 5).1 = false →
      (invalidateStale cacheFx "/f" 5).2 = cacheFx) :=
  ⟨(C9_invalidate_stale cacheFx "/f" 6).1,
   (C9_invalidate_stale cacheFx "/f" 6).2.1,
   (C9_invalidate_stale cacheFx "/f" 5).2.2⟩

/-- Counterexample to C5 as stated: the entry inserted at time 10 with
TTL 100 is still present at time 111, yet the `Get` at 111 does not
report not-found with a miss — it never returns at all, because the
expiry branch's `lru.Remove` fires the eviction callback that re-locks
the mutex `Get` holds. -/
theorem C5_counterexample :
    lookupEntry (cacheSet (freshCache 2 100) "A" entryFx 10).entries "A" =
      some { entryFx with cachedAt := 10 } ∧
    cacheGet (cacheSet (freshCache 2 100) "A" entryFx 10) "A" 111 = none :=
  ⟨rfl, rfl⟩

/-- C5 amended: an entry inserted by `Set` at `t0` is served by `Get` at
every time in `[t0, t0 + ttl]`, inclusive at the boundary; at any time
strictly past `t0 + ttl` the `Get` call self-deadlocks in the expiry
branch — it never returns a not-found result, records no miss, and
never removes the entry. -/
theorem C5_ttl_boundary_amended (c : Cache) (key : String) (e : Entry)
    (t0 : Int) (hcap : 0 < c.maxSize) :
    (∀ t, t0 ≤ t → t ≤ t0 + c.ttl →
      ∃ c', cacheGet (cacheSet c key e t0) key t =
        some (some { e with cachedAt := t0, hits := e.hits + 1 }, c')) ∧
    (∀ t, t0 + c.ttl < t →
      cacheGet (cacheSet c key e t0) key t = none) := by
  obtain ⟨⟨tail, htail⟩, hmax, httl, hhits, hmiss⟩ :=
    cacheSet_fields c key e t0 hcap
  have hlook : lookupEntry (cacheSet c key e t0).entries key =
      some { e with cachedAt := t0 } := by
    rw [htail]
    exact lookupEntry_cons_self ..
  constructor
  · intro t ht0 ht1
    have hc : ¬t - t0 > c.ttl := by omega
    have hc' : ¬t - ({ e with cachedAt := t0 } : Entry).cachedAt >
        (cacheSet c key e t0).ttl := by
      rw [httl]
      simpa using hc
    exact ⟨_, cacheGet_eq_hit (cacheSet c key e t0) key t _ hlook hc'⟩
  · intro t ht
    have hc : t - t0 > c.ttl := by omega
    have hc' : t - ({ e with cachedAt := t0 } : Entry).cachedAt >
        (cacheSet c key e t0).ttl := by
      rw [httl]
      simpa using hc
    exact cacheGet_eq_expired (cacheSet c key e t0) key t _ hlook hc'

/-- Witness for the amended C5 with TTL 100 and insertion at time 10:
time 110 is the inclusive boundary hit, time 111 deadlocks. -/
theorem C5_ttl_boundary_amended_witness :
    (∃ c', cacheGet (cacheSet (freshCache 2 100) "A" entryFx 10) "A" 110 =
      some (some { entryFx with cachedAt := 10, hits := entryFx.hits + 1 },
        c')) ∧
    cacheGet (cacheSet (freshCache 2 100) "A" entryFx 10) "A" 111 = none :=
  ⟨(C5_ttl_boundary_amended (freshCache 2 100) "A" entryFx 10 (by decide)).1
      110 (by decide) (by decide),
   (C5_ttl_boundary_amended (freshCache 2 100) "A" entryFx 10 (by decide)).2
      111 (by decide)⟩

/-- Per-operation facts for every operation that completes (`step`
returns a state): capacity is unchanged, the entry count stays within
capacity, `hits + misses` advances by one exactly on a `Get`, and the
counters stay non-negative. -/
lemma step_spec (c c' : Cache) (op : Op) (hs : step c op = some c') :
    c'.maxSize = c.maxSize ∧
    (c.entries.length ≤ c.maxSize → c'.entries.length ≤ c.maxSize) ∧
    (op.isClear = false →
      c'.hits + c'.misses = c.hits + c.misses + (if op.isGet then 1 else 0)) ∧
    (0 ≤ c.hits → 0 ≤ c.misses → 0 ≤ c'.hits ∧ 0 ≤ c'.misses) := by
  cases op with
  | get key now =>
    simp only [step] at hs
    cases hl : lookupEntry c.entries key with
    | none =>
      rw [cacheGet_eq_none c key now hl] at hs
      obtain rfl : { c with misses := c.misses + 1 } = c' := by simpa using hs
      refine ⟨rfl, fun h => h, fun _ => ?_,
        fun hh hm => ⟨hh, by show 0 ≤ c.misses + 1; omega⟩⟩
      simp [Op.isGet]
      ring
    | some e₀ =>
      by_cases ht : now - e₀.cachedAt > c.ttl
      · rw [cacheGet_eq_expired c key now e₀ hl ht] at hs
        exact absurd hs (by simp)
      · rw [cacheGet_eq_hit c key now e₀ hl ht] at hs
        obtain rfl :
            { c with
                entries := (key, { e₀ with hits := e₀.hits + 1 }) ::
                  eraseKey c.entries key,
                hits := c.hits + 1 } = c' := by simpa using hs
        have hlt := eraseKey_length_lt c.entries key (by simp [hl])
        refine ⟨rfl, fun h => ?_, fun _ => ?_,
          fun hh hm => ⟨by show 0 ≤ c.hits + 1; omega, hm⟩⟩
        · show ((key, _) :: eraseKey c.entries key).length ≤ c.maxSize
          simp only [List.length_cons]
          omega
        · simp [Op.isGet]
          ring
  | set key e now =>
    simp only [step] at hs
    obtain rfl : cacheSet c key e now = c' := by simpa using hs
    cases hl : lookupEntry c.entries key with
    | some e₁ =>
      rw [cacheSet_eq_update c key e e₁ now hl]
      have hlt := eraseKey_length_lt c.entries key (by simp [hl])
      refine ⟨rfl, fun h => ?_, fun _ => by simp [Op.isGet],
        fun hh hm => ⟨hh, hm⟩⟩
      show ((key, _) :: eraseKey c.entries key).length ≤ c.maxSize
      simp only [List.length_cons]
      omega
    | none =>
      by_cases hov :
          ((key, { e with cachedAt := now }) :: c.entries).length > c.maxSize
      · rw [cacheSet_eq_evict c key e now hl hov]
        refine ⟨rfl, fun h => ?_, fun _ => by simp [Op.isGet],
          fun hh hm => ⟨hh, hm⟩⟩
        show ((key, { e with cachedAt := now }) :: c.entries).dropLast.length ≤
          c.maxSize
        simp only [List.length_dropLast, List.length_cons]
        omega
      · rw [cacheSet_eq_add c key e now hl hov]
        refine ⟨rfl, fun h => ?_, fun _ => by simp [Op.isGet],
          fun hh hm => ⟨hh, hm⟩⟩
        show ((key, { e with cachedAt := now }) :: c.entries).length ≤ c.maxSize
        simp only [List.length_cons] at hov ⊢
        omega
  | remove key =>
    simp only [step] at hs
    obtain rfl : cacheRemove c key = c' := by simpa using hs
    cases hl : lookupEntry c.entries key with
    | some e₁ =>
      rw [cacheRemove_eq_present c key e₁ hl]
      exact ⟨rfl, fun h => le_trans (eraseKey_length_le c.entries key) h,
        fun _ => by simp [Op.isGet], fun hh hm => ⟨hh, hm⟩⟩
    | none =>
      rw [cacheRemove_eq_absent c key hl]
      exact ⟨rfl, fun h => h, fun _ => by simp [Op.isGet],
        fun hh hm => ⟨hh, hm⟩⟩
  | clear =>
    simp only [step] at hs
    obtain rfl : cacheClear c = c' := by simpa using hs
    exact ⟨rfl, fun _ => Nat.zero_le _,
      fun hfalse => by simp [Op.isClear] at hfalse,
      fun _ _ => ⟨le_refl 0, le_refl 0⟩⟩
  | invalidate key t =>
    simp only [step] at hs
    obtain rfl : (invalidateStale c key t).2 = c' := by simpa using hs
    cases hl : lookupEntry c.entries key with
    | some e₁ =>
      by_cases hm1 : e₁.modifiedTime < t
      · rw [invalidateStale_eq_stale c key t e₁ hl hm1]
        exact ⟨rfl, fun h => le_trans (eraseKey_length_le c.entries key) h,
          fun _ => by simp [Op.isGet], fun hh hm => ⟨hh, hm⟩⟩
      · rw [invalidateStale_eq_fresh c key t e₁ hl hm1]
        exact ⟨rfl, fun h => h, fun _ => by simp [Op.isGet],
          fun hh hm => ⟨hh, hm⟩⟩
    | none =>
      rw [invalidateStale_eq_absent c key t hl]
      exact ⟨rfl, fun h => h, fun _ => by simp [Op.isGet],
        fun hh hm => ⟨hh, hm⟩⟩

/-- Run-level invariants for every completing execution: the entry count
stays within the starting capacity, the capacity is unchanged,
`hits + misses` grows by the number of `Get` operations over a
`Clear`-free sequence, and the counters stay non-negative. -/
lemma run_spec (ops : List Op) (c c' : Cache) (hrun : run c ops = some c') :
    (c.entries.length ≤ c.maxSize → c'.entries.length ≤ c.maxSize) ∧
    c'.maxSize = c.maxSize ∧
    ((∀ op ∈ ops, op.isClear = false) →
      c'.hits + c'.misses = c.hits + c.misses + (ops.countP Op.isGet : Int)) ∧
    (0 ≤ c.hits → 0 ≤ c.misses → 0 ≤ c'.hits ∧ 0 ≤ c'.misses) := by
  induction ops generalizing c with
  | nil =>
    obtain rfl : c = c' := by simpa [run] using hrun
    exact ⟨fun h => h, rfl, fun _ => by simp, fun hh hm => ⟨hh, hm⟩⟩
  | cons op rest ih =>
    unfold run at hrun
    cases hstep : step c op with
    | none =>
      rw [hstep] at hrun
      exact absurd hrun (by simp)
    | some c₁ =>
      rw [hstep] at hrun
      obtain ⟨hmax1, hlen1, hcnt1, hnn1⟩ := step_spec c c₁ op hstep
      obtain ⟨hlen2, hmax2, hcnt2, hnn2⟩ := ih c₁ hrun
      refine ⟨fun h => ?_, by rw [hmax2, hmax1], fun hnc => ?_, fun hh hm => ?_⟩
      · have h1 : c₁.entries.length ≤ c₁.maxSize := by
          rw [hmax1]
          exact hlen1 h
        have h2 := hlen2 h1
        rw [hmax1] at h2
        exact h2
      · have hop : op.isClear = false := hnc op (by simp)
        have hrest : ∀ o ∈ rest, o.isClear = false := fun o ho => hnc o (by simp [ho])
        rw [hcnt2 hrest, hcnt1 hop, List.countP_cons]
        by_cases hg : op.isGet <;> simp [hg] <;> push_cast <;> ring
      · obtain ⟨hh1, hm1⟩ := hnn1 hh hm
        exact hnn2 hh1 hm1

/-- C4: starting within capacity, no completing sequence of operations
ever pushes the cache above `maxSize` entries (an operation that
deadlocks ends the execution with the bound still intact at every
completed prefix); the entry evicted by a `Set` of a new key into a
full cache is the last — least recently accessed — element of the
recency list; a completing `Get` hit and a `Set` both promote the key
to most-recently-used (the head); and in the concrete scenario with
`maxSize = 2`, `Set A; Set B; Get A; Set C` completes and evicts `B`,
leaving exactly `[C, A]`. -/
theorem C4_lru_bound_and_eviction_order (c : Cache) (ops : List Op)
    (key : String) (e : Entry) (now : Int) (hcap : 0 < c.maxSize)
    (hlen : c.entries.length ≤ c.maxSize) :
    (∀ c', run c ops = some c' → c'.entries.length ≤ c.maxSize) ∧
    (lookupEntry c.entries key = none →
      ((key, { e with cachedAt := now }) :: c.entries).length > c.maxSize →
      (cacheSet c key e now).entries =
        (key, { e with cachedAt := now }) :: c.entries.dropLast) ∧
    (∀ e' c'', cacheGet c key now = some (some e', c'') →
      c''.entries.head? = some (key, e')) ∧
    ((cacheSet c key e now).entries.head? =
      some (key, { e with cachedAt := now })) ∧
    (run (freshCache 2 1000)
      [.set "A" entryFx 0, .set "B" entryFx 1, .get "A" 2,
       .set "C" entryFx 3]).map (fun s => s.entries.map Prod.fst) =
      some ["C", "A"] := by
  refine ⟨fun c' hrun => (run_spec ops c c' hrun).1 hlen, ?_, ?_, ?_, rfl⟩
  · intro hl hov
    rw [cacheSet_eq_evict c key e now hl hov]
    show ((key, { e with cachedAt := now }) :: c.entries).dropLast = _
    cases hent : c.entries with
    | nil =>
      rw [hent] at hov
      simp only [List.length_cons, List.length_nil] at hov
      omega
    | cons a rest => simp
  · intro e' c'' he
    cases hl : lookupEntry c.entries key with
    | none => rw [cacheGet_eq_none c key now hl] at he; exact absurd he (by simp)
    | some e₀ =>
      by_cases ht : now - e₀.cachedAt > c.ttl
      · rw [cacheGet_eq_expired c key now e₀ hl ht] at he
        exact absurd he (by simp)
      · rw [cacheGet_eq_hit c key now e₀ hl ht] at he
        simp only [Option.some.injEq, Prod.mk.injEq] at he
        obtain ⟨he1, he2⟩ := he
        subst he1
        subst he2
        rfl
  · obtain ⟨⟨tail, htail⟩, -, -, -, -⟩ := cacheSet_fields c key e now hcap
    rw [htail]
    rfl

/-- Witness for C4: the spec's own scenario, extracted from the theorem
at a concrete cache — the whole sequence completes with key set
`{A, C}`. -/
theorem C4_lru_bound_and_eviction_order_witness :
    (run (freshCache 2 1000)
      [.set "A" entryFx 0, .set "B" entryFx 1, .get "A" 2,
       .set "C" entryFx 3]).map (fun s => s.entries.map Prod.fst) =
      some ["C", "A"] :=
  (C4_lru_bound_and_eviction_order (freshCache 2 1000) [] "A" entryFx 0
    (by decide) (by decide)).2.2.2.2

/-- C8: over any `Clear`-free operation sequence from a fresh cache that
completes, `hits + misses` equals the number of `Get` calls (every
completing `Get` records exactly one of the two; a deadlocking `Get`
records neither and ends the sequence), and `Stats` reports
`hitRate = hits / (hits + misses)`, taken as 0 when no `Get` has been
made. -/
theorem C8_hit_miss_accounting (maxSize : Nat) (ttl : Int) (ops : List Op)
    (detailed : Bool) (h : ∀ op ∈ ops, op.isClear = false) :
    ∀ c', run (freshCache maxSize ttl) ops = some c' →
      c'.hits + c'.misses = (ops.countP Op.isGet : Int) ∧
      (cacheStats c' detailed).hitRate =
        if c'.hits + c'.misses = 0 then 0
        else (c'.hits : ℚ) / ((c'.hits + c'.misses : Int) : ℚ) := by
  intro c' hrun
  obtain ⟨-, -, hcnt, hnn⟩ := run_spec ops (freshCache maxSize ttl) c' hrun
  have htotal : c'.hits + c'.misses = (ops.countP Op.isGet : Int) := by
    simpa [freshCache] using hcnt h
  refine ⟨htotal, ?_⟩
  obtain ⟨hh, hm⟩ := hnn (le_refl 0) (le_refl 0)
  show (if 0 < c'.hits + c'.misses then _ else _) = _
  by_cases hz : c'.hits + c'.misses = 0
  · rw [if_neg (by omega), if_pos hz]
  · rw [if_pos (by omega), if_neg hz]

/-- The concrete resulting state for the C8 witness sequence
`Set A @0; Get A @1 (hit); Get B @2 (miss)` on a fresh cache of
capacity 2 and TTL 1000. -/
def c8State : Cache :=
  ⟨[("A", ⟨"cached", 6, 5, 0, 1⟩)], 2, 1000, 1, 1, 0⟩

/-- Witness for C8: the sequence completes with `hits + misses = 2`,
matching its two `Get`s. -/
theorem C8_hit_miss_accounting_witness :
    run (freshCache 2 1000) [.set "A" entryFx 0, .get "A" 1, .get "B" 2] =
      some c8State ∧
    c8State.hits + c8State.misses =
      (([Op.set "A" entryFx 0, Op.get "A" 1, Op.get "B" 2].countP
        Op.isGet : Nat) : Int) :=
  ⟨rfl,
   (C8_hit_miss_accounting 2 1000 [.set "A" entryFx 0, .get "A" 1, .get "B" 2]
     false (by decide) c8State rfl).1⟩

/-- A full one-slot cache used by the concrete eviction-counter
witnesses. -/
def cacheFull : Cache := cacheSet (freshCache 1 100) "/a" entryFx 0

/-- Counterexample to C6 as stated: `Remove` of a present key fires the
LRU's eviction callback — `golang-lru` invokes the callback on every
removal, and `NewCache` installs `evictions++` as that callback — so
after a `Set` (evictions 0) an explicit `Remove` leaves `evictions = 1`,
not 0 as the claim's "Remove deletes the entry without changing the
hits, misses, or evictions counters" requires. -/
theorem C6_counterexample :
    lookupEntry (cacheSet (freshCache 2 100) "/a" entryFx 0).entries "/a"
      = some entryFx ∧
    (cacheSet (freshCache 2 100) "/a" entryFx 0).evictions = 0 ∧
    (cacheRemove (cacheSet (freshCache 2 100) "/a" entryFx 0) "/a").evictions
      = 1 :=
  ⟨rfl, rfl, rfl⟩

/-- C6 amended: the eviction counter increments on every completing
removal of a present entry through the LRU's eviction callback —
`Set`-overflow eviction, explicit `Remove` of a present key, and
`InvalidateStale` of a stale entry — while the removal of a TTL-expired
entry during `Get` never completes: that branch self-deadlocks (the
callback re-locks the mutex `Get` holds) before recording either a miss
or an eviction.  `Set` without overflow leaves the counter unchanged,
`Remove` never touches hits or misses, and `Remove` of an absent key
changes nothing. -/
theorem C6_eviction_counter_amended (c : Cache) (key : String) (e : Entry)
    (now t : Int) :
    (lookupEntry c.entries key = none →
      ((key, { e with cachedAt := now }) :: c.entries).length > c.maxSize →
      (cacheSet c key e now).evictions = c.evictions + 1) ∧
    (lookupEntry c.entries key = none →
      ¬((key, { e with cachedAt := now }) :: c.entries).length > c.maxSize →
      (cacheSet c key e now).evictions = c.evictions) ∧
    (∀ e₀, lookupEntry c.entries key = some e₀ →
      (cacheSet c key e now).evictions = c.evictions) ∧
    (∀ e₀, lookupEntry c.entries key = some e₀ → now - e₀.cachedAt > c.ttl →
      cacheGet c key now = none) ∧
    (∀ e₀, lookupEntry c.entries key = some e₀ → e₀.modifiedTime < t →
      (invalidateStale c key t).2.evictions = c.evictions + 1) ∧
    (∀ e₀, lookupEntry c.entries key = some e₀ →
      (cacheRemove c key).evictions = c.evictions + 1 ∧
      (cacheRemove c key).hits = c.hits ∧
      (cacheRemove c key).misses = c.misses) ∧
    (lookupEntry c.entries key = none → cacheRemove c key = c) := by
  refine ⟨?_, ?_, ?_, ?_, ?_, ?_, ?_⟩
  · intro hl hov
    rw [cacheSet_eq_evict c key e now hl hov]
  · intro hl hov
    rw [cacheSet_eq_add c key e now hl hov]
  · intro e₀ hl
    rw [cacheSet_eq_update c key e e₀ now hl]
  · intro e₀ hl ht
    exact cacheGet_eq_expired c key now e₀ hl ht
  · intro e₀ hl hm1
    rw [invalidateStale_eq_stale c key t e₀ hl hm1]
  · intro e₀ hl
    rw [cacheRemove_eq_present c key e₀ hl]
    exact ⟨rfl, rfl, rfl⟩
  · intro hl
    exact cacheRemove_eq_absent c key hl

/-- Witness for the amended C6 on a full one-slot cache: overflow `Set`,
`InvalidateStale` and `Remove` each bump the eviction counter once, a
TTL-expired `Get` deadlocks (no counter moves), and `Remove` leaves
hits and misses alone. -/
theorem C6_eviction_counter_amended_witness :
    (cacheSet cacheFull "/b" entryFx 5).evictions = cacheFull.evictions + 1 ∧
    cacheGet cacheFull "/a" 101 = none ∧
    (invalidateStale cacheFull "/a" 6).2.evictions = cacheFull.evictions + 1 ∧
    (cacheRemove cacheFull "/a").evictions = cacheFull.evictions + 1 ∧
    (cacheRemove cacheFull "/a").hits = cacheFull.hits ∧
    (cacheRemove cacheFull "/a").misses = cacheFull.misses :=
  ⟨(C6_eviction_counter_amended cacheFull "/b" entryFx 5 0).1 rfl (by decide),
   (C6_eviction_counter_amended cacheFull "/a" entryFx 101 0).2.2.2.1 entryFx
     rfl (by decide),
   (C6_eviction_counter_amended cacheFull "/a" entryFx 0 6).2.2.2.2.1 entryFx
     rfl (by decide),
   ((C6_eviction_counter_amended cacheFull "/a" entryFx 0 0).2.2.2.2.2.1 entryFx
     rfl).1,
   ((C6_eviction_counter_amended cacheFull "/a" entryFx 0 0).2.2.2.2.2.1 entryFx
     rfl).2.1,
   ((C6_eviction_counter_amended cacheFull "/a" entryFx 0 0).2.2.2.2.2.1 entryFx
     rfl).2.2⟩

/-- Counterexample to C7 as stated: a cache constructed with capacity 500
and holding 3 entries reports `size = 3` but also `maxSize = 3` — not
the configured 500 — because `Stats` populates `MaxSize` from
`c.lru.Len()`. -/
theorem C7_counterexample :
    (run (freshCache 500 300)
      [.set "A" entryFx 0, .set "B" entryFx 1, .set "C" entryFx 2]).map
        (fun s => (cacheStats s false).size) = some 3 ∧
    (run (freshCache 500 300)
      [.set "A" entryFx 0, .set "B" entryFx 1, .set "C" entryFx 2]).map
        (fun s => (cacheStats s false).maxSize) = some 3 ∧
    (run (freshCache 500 300)
      [.set "A" entryFx 0, .set "B" entryFx 1, .set "C" entryFx 2]).map
        (fun s => (cacheStats s false).maxSize) ≠ some 500 :=
  ⟨rfl, rfl, by decide⟩

/-- C7 amended: `Stats` reports `size` as the current number of live
entries and `maxSize` as that same current count (the LRU wrapper does
not expose its capacity), so the two fields always coincide and never
reflect the configured capacity. -/
theorem C7_stats_size_amended (c : Cache) (detailed : Bool) :
    (cacheStats c detailed).size = c.entries.length ∧
    (cacheStats c detailed).maxSize = c.entries.length :=
  ⟨rfl, rfl⟩

end FileContextServer
